import Mathlib

/-!
Verification of the private_share node against its natural-language
specification.  The Rust source is shallowly embedded: pure computations
become Lean functions, filesystem state becomes an explicit record that the
embedded handlers thread through, and fallible operations return `Except`.
Maps that the source keeps as `HashMap` are embedded as association lists
with overwrite-on-insert semantics.
-/

namespace PrivateShare

/-- Lookup in an association list, mirroring `HashMap::get`. -/
def alLookup {α : Type} (l : List (String × α)) (k : String) : Option α :=
  match l with
  | [] => none
  | (k', v) :: rest => if k' = k then some v else alLookup rest k

/-- Insert into an association list, overwriting any previous binding,
mirroring `HashMap::insert`. -/
def alInsert {α : Type} (l : List (String × α)) (k : String) (v : α) :
    List (String × α) :=
  match l with
  | [] => [(k, v)]
  | (k', v') :: rest =>
    if k' = k then (k, v) :: rest else (k', v') :: alInsert rest k v

/-- Remove a key from an association list, mirroring `HashMap::remove`. -/
def alRemove {α : Type} (l : List (String × α)) (k : String) :
    List (String × α) :=
  match l with
  | [] => []
  | (k', v') :: rest =>
    if k' = k then alRemove rest k else (k', v') :: alRemove rest k

/-- Membership of a key, mirroring `HashMap::contains_key`. -/
def alContains {α : Type} (l : List (String × α)) (k : String) : Bool :=
  (alLookup l k).isSome

namespace Sha256

/-!
SHA-256 (FIPS 180-4), as implemented by the `sha2` crate the node uses for
`AddFile` and `UploadFile` hashing.  Words are `Nat` reduced mod `2 ^ 32`.
-/

/-- The 32-bit modulus. -/
def M32 : Nat := 4294967296

/-- Truncate to 32 bits. -/
def w32 (x : Nat) : Nat := x % M32

/-- Right rotation of a 32-bit word by `n` bits. -/
def rotate (n x : Nat) : Nat := w32 ((x >>> n) ||| (x <<< (32 - n)))

/-- Message-schedule function sigma-0. -/
def schedule0 (x : Nat) : Nat :=
  (rotate 7 x) ^^^ (rotate 18 x) ^^^ (x >>> 3)

/-- Message-schedule function sigma-1. -/
def schedule1 (x : Nat) : Nat :=
  (rotate 17 x) ^^^ (rotate 19 x) ^^^ (x >>> 10)

/-- Compression function Sigma-0. -/
def sum0 (x : Nat) : Nat :=
  (rotate 2 x) ^^^ (rotate 13 x) ^^^ (rotate 22 x)

/-- Compression function Sigma-1. -/
def sum1 (x : Nat) : Nat :=
  (rotate 6 x) ^^^ (rotate 11 x) ^^^ (rotate 25 x)

/-- The choice function: bits of `y` where `x` is set, of `z` elsewhere. -/
def choose (x y z : Nat) : Nat :=
  (x &&& y) ^^^ ((x ^^^ 4294967295) &&& z)

/-- The majority function. -/
def majority (x y z : Nat) : Nat :=
  (x &&& y) ^^^ (x &&& z) ^^^ (y &&& z)

/-- The 64 round constants (the fractional parts of the cube roots of the
first 64 primes), in decimal. -/
def roundConsts : List Nat :=
  [1116352408, 1899447441, 3049323471, 3921009573, 961987163,
   1508970993, 2453635748, 2870763221, 3624381080, 310598401,
   607225278, 1426881987, 1925078388, 2162078206, 2614888103,
   3248222580, 3835390401, 4022224774, 264347078, 604807628,
   770255983, 1249150122, 1555081692, 1996064986, 2554220882,
   2821834349, 2952996808, 3210313671, 3336571891, 3584528711,
   113926993, 338241895, 666307205, 773529912, 1294757372,
   1396182291, 1695183700, 1986661051, 2177026350, 2456956037,
   2730485921, 2820302411, 3259730800, 3345764771, 3516065817,
   3600352804, 4094571909, 275423344, 430227734, 506948616,
   659060556, 883997877, 958139571, 1322822218, 1537002063,
   1747873779, 1955562222, 2024104815, 2227730452, 2361852424,
   2428436474, 2756734187, 3204031479, 3329325298]

/-- The initial hash state (fractional parts of the square roots of the
first 8 primes), in decimal. -/
def initState : List Nat :=
  [1779033703, 3144134277, 1013904242, 2773480762,
   1359893119, 2600822924, 528734635, 1541459225]

/-- Big-endian byte expansion of a value to `n` bytes. -/
def toBytesBE (n v : Nat) : List Nat :=
  (List.range n).map fun i => (v >>> (8 * (n - 1 - i))) % 256

/-- Pad a byte message per FIPS 180-4: append `0x80`, zeros to 56 mod 64,
then the bit length as 8 big-endian bytes. -/
def pad (msg : List Nat) : List Nat :=
  let len := msg.length
  let zeros := (119 - len % 64) % 64
  msg ++ [128] ++ List.replicate zeros 0 ++ toBytesBE 8 (len * 8)

/-- Split a padded message into 64-byte blocks. -/
def blocks (l : List Nat) : List (List Nat) :=
  (List.range (l.length / 64)).map fun i => (l.drop (64 * i)).take 64

/-- Parse a 64-byte block into its 16 big-endian 32-bit words. -/
def bytesToWords (block : List Nat) : List Nat :=
  (List.range 16).map fun i =>
    block.getD (4 * i) 0 * 16777216 + block.getD (4 * i + 1) 0 * 65536 +
      block.getD (4 * i + 2) 0 * 256 + block.getD (4 * i + 3) 0

/-- Extend 16 schedule words to 64. -/
def extendWords (ws : List Nat) : List Nat :=
  (List.range 48).foldl
    (fun ws _ =>
      let n := ws.length
      ws ++ [w32 (schedule1 (ws.getD (n - 2) 0) + ws.getD (n - 7) 0 +
        schedule0 (ws.getD (n - 15) 0) + ws.getD (n - 16) 0)])
    ws

/-- One compression round on the 8-word working state. -/
def round (st : List Nat) (kw : Nat × Nat) : List Nat :=
  match st with
  | [a, b, c, d, e, f, g, h] =>
    let t1 := w32 (h + sum1 e + choose e f g + kw.1 + kw.2)
    let t2 := w32 (sum0 a + majority a b c)
    [w32 (t1 + t2), a, b, c, w32 (d + t1), e, f, g]
  | other => other

/-- Compress one 64-byte block into the hash state. -/
def compress (h : List Nat) (block : List Nat) : List Nat :=
  let ws := extendWords (bytesToWords block)
  let st := (roundConsts.zip ws).foldl round h
  (h.zip st).map fun p => w32 (p.1 + p.2)

/-- SHA-256 of a byte list, producing 32 bytes. -/
def sha256 (msg : List Nat) : List Nat :=
  (((blocks (pad msg)).foldl compress initState).map (toBytesBE 4)).flatten

end Sha256

/-- Uppercase hexadecimal digit for a nibble. -/
def hexDigit (n : Nat) : Char :=
  if n < 10 then Char.ofNat (48 + n) else Char.ofNat (55 + n)

/-- Uppercase hex encoding of a byte list, mirroring `hex::encode_upper`. -/
def hexUpper (bytes : List Nat) : String :=
  String.mk ((bytes.map fun b => [hexDigit (b / 16), hexDigit (b % 16)]).flatten)

/-- The uppercase-hex SHA-256 used to name index files. -/
def fileHash (content : List Nat) : String := hexUpper (Sha256.sha256 content)

/-- Error kinds the embedded handlers distinguish, mirroring the
`std::io::ErrorKind` values the source matches on plus the decode failures
that `anyhow` carries out of the event handler. -/
inductive IoErrorKind
  | notFound
  | alreadyExists
  | invalidData
  | invalidInput
  | timedOut
  | connectionAborted
  | other
  | decodeError
deriving DecidableEq, Repr

/-- An entry directly under `index_dir`: either a regular content-addressed
file or something that is not a regular file (the "store broken" case the
`AddFile` handler checks with `metadata.is_file()`). -/
inductive IndexEntry
  | regular (content : List Nat)
  | notRegular
deriving DecidableEq, Repr

/-- The on-disk state the embedded handlers manipulate.
`index` holds the entries of `index_dir` (excluding `.tmp`), keyed by their
filename (the uppercase-hex hash for regular entries).  `tmp` holds the
contents of `index_dir/.tmp`, keyed by filename.  `store` holds the symlinks
of `store_dir`: human filename mapped to the basename of the link target
(the hash, since every target is `index_dir/<HASH>`). -/
structure Fs where
  index : List (String × IndexEntry)
  tmp : List (String × List Nat)
  store : List (String × String)
deriving DecidableEq, Repr

/-- Create a symlink `store_dir/<filename>` pointing at
`index_dir/<target>`: POSIX `symlink` fails with `EEXIST` when the entry
already exists (whatever it is) and does not inspect the target. -/
def symlinkStore (fs : Fs) (filename target : String) :
    Except IoErrorKind Fs :=
  if alContains fs.store filename then .error .alreadyExists
  else .ok { fs with store := fs.store ++ [(filename, target)] }

/-!
`CommandHandler::handle_add_file_command` (src/src/node/command_handler.rs,
lines 143-299).  The file at `file_path` has been opened and streamed
through the hasher; `content` is its byte content and `filename` its
basename.  The handler then checks `index_dir/<HASH>`, copies if absent,
unlinks any `store_dir/<basename>` entry and symlinks it to the index file.
-/

/-- Embedding of `handle_add_file_command`: hash the content, create the
index file when missing, fail when the index entry is not a regular file,
then replace the `store_dir` entry with a symlink to the index file. -/
def handle_add_file_command (fs : Fs) (filename : String)
    (content : List Nat) : Except IoErrorKind Fs :=
  let hash := fileHash content
  match alLookup fs.index hash with
  | some .notRegular => .error .other
  | some (.regular _) =>
    .ok { fs with store := alInsert (alRemove fs.store filename) filename hash }
  | none =>
    let fs := { fs with index := alInsert fs.index hash (.regular content) }
    .ok { fs with store := alInsert (alRemove fs.store filename) filename hash }

/-!
`upload_file` (src/src/node/command_handler.rs, lines 692-803).  The stream
has been drained into `content`; `tmpName` stands for the random
`.upload.<rand16>` temp filename.  The computed hash names the index file;
`AlreadyExists` from the rename and from the symlink are tolerated; a
mismatch with the caller-supplied hash only logs a warning.
-/

/-- The error dispatch of the `fs::rename` match in `upload_file`
(command_handler.rs lines 771-786): any error other than `AlreadyExists`
is returned, `AlreadyExists` and success continue. -/
def uploadRenameDispatch (r : Except IoErrorKind Unit) :
    Except IoErrorKind Unit :=
  match r with
  | .error e => if e ≠ .alreadyExists then .error e else .ok ()
  | .ok _ => .ok ()

/-- The error dispatch of the `fs::symlink` match in `upload_file`
(command_handler.rs lines 789-800): same `AlreadyExists` tolerance. -/
def uploadSymlinkDispatch (r : Except IoErrorKind Unit) :
    Except IoErrorKind Unit :=
  match r with
  | .error e => if e ≠ .alreadyExists then .error e else .ok ()
  | .ok _ => .ok ()

/-- Rename `index_dir/.tmp/<src>` to `index_dir/<dst>`: POSIX `rename`
replaces an existing destination atomically and fails with `ENOENT` when
the source is absent. -/
def renameTmpFile (fs : Fs) (src dst : String) : Except IoErrorKind Fs :=
  match alLookup fs.tmp src with
  | none => .error .notFound
  | some content =>
    .ok { fs with
          tmp := alRemove fs.tmp src
          index := alInsert fs.index dst (.regular content) }

/-- Embedding of `upload_file`: write the streamed bytes to
`index_dir/.tmp/.upload.<tmpName>`, compute the hash, rename the temp file
to `index_dir/<hash_result>` tolerating `AlreadyExists` (in which case the
temp file stays behind), then symlink `store_dir/<filename>` tolerating
`AlreadyExists`.  A caller-supplied `hash` that differs from the computed
one is only warned about.  Returns the updated state and the hash the
content was published under. -/
def upload_file (fs : Fs) (filename : String) (hash : Option String)
    (tmpName : String) (content : List Nat) :
    Except IoErrorKind (Fs × String) :=
  let hash_result := fileHash content
  let tmpFile := ".upload." ++ tmpName
  let fs := { fs with tmp := alInsert fs.tmp tmpFile content }
  -- the hash mismatch check: `warn!` only, no effect on the outcome
  let _mismatchWarned := hash.any fun h => h ≠ hash_result
  let renamed := renameTmpFile fs tmpFile hash_result
  match uploadRenameDispatch (renamed.map fun _ => ()) with
  | .error e => .error e
  | .ok _ =>
    let fs := match renamed with | .ok fs' => fs' | .error _ => fs
    let linked := symlinkStore fs filename hash_result
    match uploadSymlinkDispatch (linked.map fun _ => ()) with
    | .error e => .error e
    | .ok _ =>
      let fs := match linked with | .ok fs' => fs' | .error _ => fs
      .ok (fs, hash_result)

/-!
Peer stores (`PeerNodeStore`, src/src/node/mod.rs lines 381-385) and the
gossip `FileMessage` application (`EventHandler::handle_gossip_event`,
src/src/node/event_handler.rs lines 145-176).
-/

/-- A file entry of a gossip `FileMessage` (`crate::node::message::File`,
with the `file_size` field tag 3 the handlers read). -/
structure FileEntry where
  filename : String
  hash : String
  file_size : Nat
deriving DecidableEq, Repr

/-- The per-peer view of advertised files (`PeerNodeStore`):
`files` maps filename to hash and `index` maps hash to size. -/
structure PeerNodeStore where
  files : List (String × String)
  index : List (String × Nat)
deriving DecidableEq, Repr

/-- The empty peer store (`PeerNodeStore::default()`). -/
def PeerNodeStore.empty : PeerNodeStore := ⟨[], []⟩

/-- The per-file update of `handle_gossip_event`: always
`index.insert(hash, size)`, then `files.entry(filename).or_insert(hash)`
(keeping the first hash seen for the filename). -/
def applyFileEntry (st : PeerNodeStore) (f : FileEntry) : PeerNodeStore :=
  { index := alInsert st.index f.hash f.file_size
    files :=
      match alLookup st.files f.filename with
      | some _ => st.files
      | none => alInsert st.files f.filename f.hash }

/-- Folding a whole `file_list` into an initially cleared store, as
`handle_gossip_event` does after `files.clear()` and `index.clear()`. -/
def applyFileList (files : List FileEntry) : PeerNodeStore :=
  files.foldl applyFileEntry PeerNodeStore.empty

/-- The peer-store update of `handle_gossip_event` for a `FileMessage` from
`peerId`: `entry(peer_id).or_insert(default)`, clear both maps, then apply
every listed file — i.e. bind `peerId` to the snapshot of `fileList`. -/
def applyFileMessage (stores : List (String × PeerNodeStore))
    (peerId : String) (fileList : List FileEntry) :
    List (String × PeerNodeStore) :=
  alInsert stores peerId (applyFileList fileList)

/-- Hash of the first occurrence of `filename` in a file list. -/
def firstHashFor (files : List FileEntry) (filename : String) :
    Option String :=
  (files.find? fun f => f.filename = filename).map FileEntry.hash

/-- Size of the last occurrence of `hash` in a file list. -/
def lastSizeFor (files : List FileEntry) (hash : String) : Option Nat :=
  (files.reverse.find? fun f => f.hash = hash).map FileEntry.file_size

/-!
The file-sync engine (src/src/node/file_sync.rs).
-/

/-- 8 MiB, `MAX_FILE_CHUNK_SIZE` (file_sync.rs lines 24-25). -/
def MAX_FILE_CHUNK_SIZE : Nat := 8 * 1024 * 1024

/-- 16, `MAX_CONCURRENT_SYNC_TASKS` (file_sync.rs lines 27-28). -/
def MAX_CONCURRENT_SYNC_TASKS : Nat := 16

/-- The in-progress sync entry `HashFile` (file_sync.rs lines 268-275). -/
structure HashFile where
  hash : String
  filenames : List String
  peers : List String
  size : Nat
  syncing_offset : Nat
deriving DecidableEq, Repr

/-- A `FileRequest` (src/src/node/behaviour.rs). -/
structure FileRequest where
  filename : String
  hash : String
  offset : Nat
  length : Nat
deriving DecidableEq, Repr

/-- A `FileResponse` (src/src/node/behaviour.rs): absent content signals
"not found". -/
structure FileResponse where
  content : Option (List Nat)
deriving DecidableEq, Repr

/-- Paniced lookups in the sync and list-files paths, embedded as errors:
`missingHashInIndex` stands for the `unwrap` of `peer_store.index.get`
in `need_sync` (file_sync.rs line 254) and the `unwrap_or_else(panic!)` in
`handle_list_files_command` (command_handler.rs line 395). -/
inductive SyncPanic
  | missingHashInIndex
deriving DecidableEq, Repr

/-- The inner chunk loop of `FileSync::sync_files` (file_sync.rs lines
107-168) for one entry: starting from `syncing_offset`, while
`offset < size` issue a request of length `MAX_FILE_CHUNK_SIZE` at
`offset`, advance `offset` by that length, decrement the budget, and stop
when the budget hits zero.  Returns the issued `(offset, length)` chunks,
the final offset stored back into `syncing_offset`, and the remaining
budget. -/
def scheduleChunks (offset size : Nat) : Nat → List (Nat × Nat) × Nat × Nat
  | 0 => ([], offset, 0)
  | b + 1 =>
    if offset < size then
      let rest := scheduleChunks (offset + MAX_FILE_CHUNK_SIZE) size b
      ((offset, MAX_FILE_CHUNK_SIZE) :: rest.1, rest.2)
    else ([], offset, b + 1)

/-- The outer entry loop of `FileSync::sync_files` (file_sync.rs lines
96-171): process entries while the task budget lasts; every request names
`filenames[0]` and the entry's hash; entries keep their updated
`syncing_offset`, untouched entries carry their previous one. -/
def syncSchedule (entries : List (String × HashFile)) (budget : Nat) :
    List FileRequest × List (String × HashFile) :=
  match entries with
  | [] => ([], [])
  | (key, hf) :: rest =>
    if budget = 0 then ([], (key, hf) :: rest)
    else
      let (chunks, newOffset, budget') :=
        scheduleChunks hf.syncing_offset hf.size budget
      let reqs := chunks.map fun c =>
        { filename := hf.filenames.headD ""
          hash := hf.hash
          offset := c.1
          length := c.2 : FileRequest }
      let (restReqs, rest') := syncSchedule rest budget'
      (reqs ++ restReqs, (key, { hf with syncing_offset := newOffset }) :: rest')

/-- The per-peer accumulation of `FileSync::need_sync` (file_sync.rs lines
236-258): for each `(filename, hash)` the peer advertises, skip it when the
local set `L` already has the pair; otherwise `and_modify` an existing
entry for the hash (pushing the peer and the filename) or insert a fresh
entry whose size is `peer_store.index.get(hash).unwrap()` — the `unwrap`
is embedded as the `missingHashInIndex` error. -/
def needSyncPeer (L : List (String × String)) (peer : String)
    (st : PeerNodeStore) :
    List (String × String) → List (String × HashFile) →
    Except SyncPanic (List (String × HashFile))
  | [], acc => .ok acc
  | (filename, hash) :: rest, acc =>
    if (filename, hash) ∈ L then needSyncPeer L peer st rest acc
    else
      match alLookup acc hash with
      | some hf =>
        needSyncPeer L peer st rest
          (alInsert acc hash
            { hf with
              peers := hf.peers ++ [peer]
              filenames := hf.filenames ++ [filename] })
      | none =>
        match alLookup st.index hash with
        | none => .error .missingHashInIndex
        | some size =>
          needSyncPeer L peer st rest
            (acc ++ [(hash, ⟨hash, [filename], [peer], size, 0⟩)])

/-- The outer loop of `FileSync::need_sync` over all peer stores
(file_sync.rs lines 236-258). -/
def needSyncAll (L : List (String × String)) :
    List (String × PeerNodeStore) → List (String × HashFile) →
    Except SyncPanic (List (String × HashFile))
  | [], acc => .ok acc
  | ps :: rest, acc =>
    match needSyncPeer L ps.1 ps.2 ps.2.files acc with
    | .error e => .error e
    | .ok acc' => needSyncAll L rest acc'

/-- The full diff of `FileSync::need_sync` (file_sync.rs lines 204-265):
`L` is the set of `(filename, hash)` pairs read off the `store_dir`
symlinks; fold every peer store in.  Returns `none` when nothing needs
syncing. -/
def need_sync (fs : Fs) (peerStores : List (String × PeerNodeStore)) :
    Except SyncPanic (Option (List (String × HashFile))) :=
  match needSyncAll fs.store peerStores [] with
  | .error e => .error e
  | .ok [] => .ok none
  | .ok entries => .ok (some entries)

/-- Embedding of `FileSync::sync_files` (file_sync.rs lines 62-178) at the
level of the requests it dispatches: on a fresh tick (`syncingFiles =
none`) run the diff and return no task when it is empty, otherwise resume
the carried entries; then schedule chunk requests under the global budget.
Returns the dispatched requests and the entry map handed to the sync task
(`none` when `sync_files` returned `Ok(None)`). -/
def sync_files (fs : Fs) (peerStores : List (String × PeerNodeStore))
    (syncingFiles : Option (List (String × HashFile))) :
    Except SyncPanic (List FileRequest × Option (List (String × HashFile))) :=
  let start : Except SyncPanic (Option (List (String × HashFile))) :=
    match syncingFiles with
    | some entries => .ok (some entries)
    | none => need_sync fs peerStores
  match start with
  | .error e => .error e
  | .ok none => .ok ([], none)
  | .ok (some entries) =>
    let (reqs, entries') := syncSchedule entries MAX_CONCURRENT_SYNC_TASKS
    .ok (reqs, some entries')

/-- The finalize step of `handle_sync_files_result` for one finished entry
(file_sync.rs lines 304-337): for every candidate filename, rename
`index_dir/.tmp/<HASH>` to `index_dir/<HASH>` tolerating only `NotFound`,
then create the `store_dir/<filename>` symlink, propagating every symlink
error. -/
def finalizeHashFile (hf : HashFile) :
    List String → Fs → Except IoErrorKind Fs
  | [], fs => .ok fs
  | filename :: rest, fs =>
    let renamed := renameTmpFile fs hf.hash hf.hash
    match renamed with
    | .error e =>
      if e ≠ .notFound then .error e
      else
        match symlinkStore fs filename hf.hash with
        | .error e' => .error e'
        | .ok fs' => finalizeHashFile hf rest fs'
    | .ok fs' =>
      match symlinkStore fs' filename hf.hash with
      | .error e' => .error e'
      | .ok fs'' => finalizeHashFile hf rest fs''

/-- The finalize loop of `handle_sync_files_result` (file_sync.rs lines
290-343): skip entries with `syncing_offset < size`, finalize the rest and
collect their hashes. -/
def finalizeLoop :
    List (String × HashFile) → Fs → Except IoErrorKind (Fs × List String)
  | [], fs => .ok (fs, [])
  | (_, hf) :: rest, fs =>
    if hf.syncing_offset < hf.size then finalizeLoop rest fs
    else
      match finalizeHashFile hf hf.filenames fs with
      | .error e => .error e
      | .ok fs' =>
        match finalizeLoop rest fs' with
        | .error e => .error e
        | .ok (fs'', finished) => .ok (fs'', hf.hash :: finished)

/-- Embedding of `handle_sync_files_result` (file_sync.rs lines 277-355):
first await the chunk tasks (`chunkResults`), aborting on the first error;
then finalize every finished entry; remove the finished hashes from the
map; return `none` when the map is empty. -/
def handle_sync_files_result (chunkResults : List (Except IoErrorKind Unit))
    (fs : Fs) (entries : List (String × HashFile)) :
    Except IoErrorKind (Fs × Option (List (String × HashFile))) :=
  match chunkResults.findSome?
      (fun r => match r with | .error e => some e | .ok _ => none) with
  | some e => .error e
  | none =>
    match finalizeLoop entries fs with
    | .error e => .error e
    | .ok (fs', finished) =>
      let remaining := entries.filter fun p => ¬ p.1 ∈ finished
      .ok (fs', if remaining.isEmpty then none else some remaining)

/-- The peer part of `handle_list_files_command` (command_handler.rs lines
387-399): flat-map every peer store's `(filename, hash)` pairs, looking
each hash up in the peer's `index` — the `unwrap_or_else(panic!)` on a
missing hash is embedded as the `missingHashInIndex` error.  (The filter
against local files runs after this lookup.) -/
def collectPeerFilesOne (peerId : String) (st : PeerNodeStore) :
    List (String × String) → List (String × String × String × Nat) →
    Except SyncPanic (List (String × String × String × Nat))
  | [], acc => .ok acc
  | fh :: rest, acc =>
    match alLookup st.index fh.2 with
    | none => .error .missingHashInIndex
    | some size =>
      collectPeerFilesOne peerId st rest (acc ++ [(peerId, fh.1, fh.2, size)])

def collectPeerFilesAll :
    List (String × PeerNodeStore) →
    List (String × String × String × Nat) →
    Except SyncPanic (List (String × String × String × Nat))
  | [], acc => .ok acc
  | ps :: rest, acc =>
    match collectPeerFilesOne ps.1 ps.2 ps.2.files acc with
    | .error e => .error e
    | .ok acc' => collectPeerFilesAll rest acc'

def collectPeerFileDetails (peerStores : List (String × PeerNodeStore)) :
    Except SyncPanic (List (String × String × String × Nat)) :=
  collectPeerFilesAll peerStores []

/-!
Serving inbound file requests (`EventHandler::read_file`,
src/src/node/event_handler.rs lines 386-493, and the request arm of
`handle_request_respond_success_event`, lines 281-309).
-/

/-- Modelled from the spec: `src/src/ext/async_file_ext.rs` is absent from
the source tree; per the spec, `read_at` reads at most `length` bytes at
`offset` from a regular file and short reads are acceptable, so it returns
`min length (size - offset)` bytes. -/
def readAt (content : List Nat) (offset length : Nat) : List Nat :=
  (content.drop offset).take length

/-- Embedding of `EventHandler::read_file`: resolve `store_dir/<filename>`;
if the symlink is absent, try to open `index_dir/<hash>` — `NotFound` there
yields `none` ("file not found"), while any existing entry opens
successfully (`File::open` with `O_RDONLY` also succeeds on a non-regular
entry such as a directory) and the missing symlink is then created as a
side effect; if the symlink is present but points at a path other than
`index_dir/<hash>`, fail with `InvalidData`; otherwise read up to `length`
bytes at `offset` — a read on a non-regular entry fails (`EISDIR`-style),
but only after the symlink was created.  The updated state is returned
alongside the result. -/
def read_file (fs : Fs) (filename hash : String) (offset length : Nat) :
    Fs × Except IoErrorKind (Option (List Nat)) :=
  match alLookup fs.store filename with
  | none =>
    -- `read_link` failed with `NotFound`: open the index file, create the
    -- symlink, then read
    match alLookup fs.index hash with
    | none => (fs, .ok none)
    | some entry =>
      match symlinkStore fs filename hash with
      | .error e => (fs, .error e)
      | .ok fs' =>
        match entry with
        | .regular content => (fs', .ok (some (readAt content offset length)))
        | .notRegular => (fs', .error .other)
  | some target =>
    if target ≠ hash then (fs, .error .invalidData)
    else
      match alLookup fs.index hash with
      | none => (fs, .ok none)
      | some (.regular content) =>
        (fs, .ok (some (readAt content offset length)))
      | some .notRegular => (fs, .error .other)

/-- The inbound-request arm of `handle_request_respond_success_event`:
call `read_file` with the request's fields; on success send a
`FileResponse` carrying the (possibly absent) content; on failure the
error propagates out of the handler with `?` and no response is sent. -/
def handleInboundFileRequest (fs : Fs) (req : FileRequest) :
    Fs × Option FileResponse × Except IoErrorKind Unit :=
  let (fs', r) := read_file fs req.filename req.hash req.offset req.length
  match r with
  | .error e => (fs', none, .error e)
  | .ok content => (fs', some ⟨content⟩, .ok ())

/-!
The event handler (`EventHandler::handle_event`,
src/src/node/event_handler.rs lines 46-140) and the swarm-event arm of the
node loop (`Node::run`, src/src/node/mod.rs lines 125-308).
-/

/-- Modelled decode outcome of a raw gossip payload: the prost and bs58
decoders are external library code, so an event carries the outcome of
decoding its payload.  `peerId = none` stands for a payload whose
`peer_id` field fails base58/`PeerId` parsing. -/
structure RawFileMessage where
  peerId : Option String
  fileList : List FileEntry
deriving DecidableEq, Repr

/-- A peer entry of a `DiscoverMessage`, with its parse outcomes:
`none` components stand for a peer id or multiaddr that fails parsing. -/
structure RawDiscoverPeer where
  peerId : Option String
  addr : Option String
deriving DecidableEq, Repr

/-- Gossip events as matched by `handle_gossip_event`. -/
inductive GossipEv
  | fileShareMessage (decoded : Option RawFileMessage)
  | discoverShareMessage (decoded : Option (List RawDiscoverPeer))
  | otherTopicMessage
  | subscribed
  | unsubscribed
  | notSupported
deriving DecidableEq, Repr

/-- The `OutboundFailure` kinds of the request-response behaviour. -/
inductive OutboundFailureKind
  | dialFailure
  | unsupportedProtocols
  | timeout
  | connectionClosed
deriving DecidableEq, Repr

/-- Request-response events as matched by `handle_request_respond_event`. -/
inductive RequestRespondEv
  | inboundRequest (req : FileRequest)
  | inboundResponse (requestId : Nat) (resp : FileResponse)
  | outboundFailure (requestId : Nat) (kind : OutboundFailureKind)
  | inboundFailure
  | responseSent
deriving DecidableEq, Repr

/-- Swarm events as matched by `handle_event` (the `BannedPeer` arm is
`unreachable!` in the source — no peer is ever banned — and is omitted). -/
inductive SwarmEv
  | newListenAddr
  | gossip (ev : GossipEv)
  | requestRespond (ev : RequestRespondEv)
  | keepaliveOrPing
  | identifyReceived (peerId : String) (observedAddr : String)
      (listenAddrs : List String)
  | identifyOther
  | connectionEstablished (peerId : String)
  | connectionClosed (peerId : String)
  | incomingConnection
  | incomingConnectionError
  | outgoingConnectionError (peerId : Option String)
  | expiredListenAddr
  | listenerClosed
  | listenerError
  | dialing
deriving DecidableEq, Repr

/-- The in-memory node state the event handler mutates. -/
structure NodeState where
  fs : Fs
  peerStores : List (String × PeerNodeStore)
  fileGetRequests : List Nat
  peerAddrConnecting : List (String × String)
  dialQueue : List (String × Nat)
  gossipExplicit : List String
  rrAddresses : List (String × String)
  rrConnected : List String
  externalAddrs : List String
deriving DecidableEq, Repr

deriving instance DecidableEq for Except

/-- What one `handle_event` call produced: the updated state, a response
sent back on an inbound request channel (if any), the one-shot deliveries
made to pending file requests, and the handler's own result — the value
`Node::run` applies `?` to. -/
structure EventOutcome where
  state : NodeState
  sent : Option FileResponse
  delivered : List (Nat × Except IoErrorKind FileResponse)
  result : Except IoErrorKind Unit
deriving DecidableEq, Repr

/-- An `EventOutcome` that only carries a state change. -/
def EventOutcome.pure (s : NodeState) : EventOutcome := ⟨s, none, [], .ok ()⟩

/-- An `EventOutcome` that failed with `e`. -/
def EventOutcome.fail (s : NodeState) (e : IoErrorKind) : EventOutcome :=
  ⟨s, none, [], .error e⟩

/-- The error mapping of the `OutboundFailure` arm
(event_handler.rs lines 246-254). -/
def mapOutboundFailure (kind : OutboundFailureKind) : IoErrorKind :=
  match kind with
  | .dialFailure => .other
  | .unsupportedProtocols => .other
  | .timeout => .timedOut
  | .connectionClosed => .connectionAborted

/-- Embedding of `handle_gossip_event` (event_handler.rs lines 142-227):
on the file-share topic decode the `FileMessage` and its peer id
(failures propagate as errors) and replace that peer's store; on the
discover topic register each listed peer address unless already connected;
other events are informational. -/
def handle_gossip_event (s : NodeState) (ev : GossipEv) : EventOutcome :=
  match ev with
  | .fileShareMessage none => .fail s .decodeError
  | .fileShareMessage (some raw) =>
    match raw.peerId with
    | none => .fail s .decodeError
    | some pid =>
      .pure { s with peerStores := applyFileMessage s.peerStores pid raw.fileList }
  | .discoverShareMessage none => .fail s .decodeError
  | .discoverShareMessage (some peers) =>
    -- `try_collect` fails the whole handler when any peer fails to parse
    if peers.any (fun p => p.peerId.isNone ∨ p.addr.isNone) then
      .fail s .decodeError
    else
      .pure { s with
        rrAddresses := peers.foldl
          (fun addrs p =>
            match p.peerId, p.addr with
            | some pid, some addr =>
              if pid ∈ s.rrConnected then addrs else addrs ++ [(pid, addr)]
            | _, _ => addrs)
          s.rrAddresses }
  | .otherTopicMessage => .pure s
  | .subscribed => .pure s
  | .unsubscribed => .pure s
  | .notSupported => .pure s

/-- Embedding of `handle_request_respond_event` (event_handler.rs lines
229-324): serve inbound requests through `read_file`; deliver inbound
responses to the pending one-shot looked up by request id; map outbound
failures to typed I/O errors and deliver them; inbound failures and
response confirmations are logged only. -/
def handle_request_respond_event (s : NodeState) (ev : RequestRespondEv) :
    EventOutcome :=
  match ev with
  | .inboundRequest req =>
    let (fs', sent, result) := handleInboundFileRequest s.fs req
    ⟨{ s with fs := fs' }, sent, [], result⟩
  | .inboundResponse requestId resp =>
    if requestId ∈ s.fileGetRequests then
      ⟨{ s with fileGetRequests := s.fileGetRequests.filter (· ≠ requestId) },
        none, [(requestId, .ok resp)], .ok ()⟩
    else .pure s
  | .outboundFailure requestId kind =>
    if requestId ∈ s.fileGetRequests then
      ⟨{ s with fileGetRequests := s.fileGetRequests.filter (· ≠ requestId) },
        none, [(requestId, .error (mapOutboundFailure kind))], .ok ()⟩
    else .pure s
  | .inboundFailure => .pure s
  | .responseSent => .pure s

/-- Embedding of `EventHandler::handle_event` (event_handler.rs lines
46-140): dispatch on the swarm event; gossip and request-respond failures
propagate out with `?`; connection lifecycle events update the explicit
peer list and the connecting/dial bookkeeping; the identify arm records
the observed address and publishes a discover message (its publish outcome
is not modelled as failing here). -/
def handle_event (s : NodeState) (ev : SwarmEv) : EventOutcome :=
  match ev with
  | .newListenAddr => .pure s
  | .gossip gev => handle_gossip_event s gev
  | .requestRespond rev => handle_request_respond_event s rev
  | .keepaliveOrPing => .pure s
  | .identifyReceived peerId observedAddr _listenAddrs =>
    let s :=
      if observedAddr ∈ s.externalAddrs then s
      else { s with externalAddrs := s.externalAddrs ++ [observedAddr] }
    .pure { s with
      gossipExplicit :=
        if peerId ∈ s.gossipExplicit then s.gossipExplicit
        else s.gossipExplicit ++ [peerId] }
  | .identifyOther => .pure s
  | .connectionEstablished peerId =>
    .pure { s with
      gossipExplicit :=
        if peerId ∈ s.gossipExplicit then s.gossipExplicit
        else s.gossipExplicit ++ [peerId]
      peerAddrConnecting := alRemove s.peerAddrConnecting peerId }
  | .connectionClosed peerId =>
    .pure { s with gossipExplicit := s.gossipExplicit.filter (· ≠ peerId) }
  | .incomingConnection => .pure s
  | .incomingConnectionError => .pure s
  | .outgoingConnectionError peerId =>
    match peerId with
    | none => .pure s
    | some pid =>
      match alLookup s.peerAddrConnecting pid with
      | none => .pure s
      | some addr =>
        .pure { s with
          peerAddrConnecting := alRemove s.peerAddrConnecting pid
          dialQueue := s.dialQueue ++ [(addr, 3)] }
  | .expiredListenAddr => .pure s
  | .listenerClosed => .pure s
  | .listenerError => .pure s
  | .dialing => .pure s

/-- The peer-store invariant of claim C9: every hash appearing as a value
of the filename map has an entry in the size index. -/
def StoreInv (st : PeerNodeStore) : Prop :=
  ∀ p ∈ st.files, (alLookup st.index p.2).isSome

/-- What one iteration of `Node::run`'s swarm-event arm does next. -/
inductive LoopStep
  | next (s : NodeState)
  | exitRun (e : IoErrorKind)
deriving DecidableEq, Repr

/-- The swarm-event arm of `Node::run` (mod.rs lines 145-160 and 217-232):
`handle_event(event).await?` — a handler error is returned from `run`,
otherwise the loop continues with the updated state. -/
def runStep (s : NodeState) (ev : SwarmEv) : LoopStep :=
  match (handle_event s ev).result with
  | .ok _ => .next (handle_event s ev).state
  | .error e => .exitRun e

end PrivateShare

section Sha256Checks

example : PrivateShare.fileHash [] =
    "E3B0C44298FC1C149AFBF4C8996FB92427AE41E4649B934CA495991B7852B855" := by
  decide

example : PrivateShare.fileHash [104, 101, 108, 108, 111, 10] =
    "5891B5B522D5DF086D0FF0B110FBD9D21BB4FC7163AF34D08286A2E846F6BE03" := by
  decide

end Sha256Checks

namespace PrivateShare

/-!
Helper lemmas about the association-list operations.
-/

theorem alLookup_alInsert {α : Type} (l : List (String × α)) (k k' : String)
    (v : α) :
    alLookup (alInsert l k v) k' = if k = k' then some v else alLookup l k' := by
  induction l with
  | nil => by_cases h : k = k' <;> simp [alInsert, alLookup, h]
  | cons p rest ih =>
    obtain ⟨k1, v1⟩ := p
    by_cases h1 : k1 = k
    · subst h1
      by_cases h2 : k1 = k' <;> simp [alInsert, alLookup, h2]
    · by_cases h2 : k1 = k'
      · have h3 : ¬ k = k' := fun h => h1 (h2.trans h.symm)
        have h4 : ¬ k' = k := fun h => h1 (h2.trans h)
        simp [alInsert, alLookup, h1, h2, h3, h4]
      · simp [alInsert, alLookup, h1, h2, ih]

theorem alLookup_alRemove {α : Type} (l : List (String × α)) (k k' : String) :
    alLookup (alRemove l k) k' = if k = k' then none else alLookup l k' := by
  induction l with
  | nil => by_cases h : k = k' <;> simp [alRemove, alLookup, h]
  | cons p rest ih =>
    obtain ⟨k1, v1⟩ := p
    by_cases h1 : k1 = k
    · subst h1
      by_cases h2 : k1 = k'
      · subst h2; simp [alRemove, alLookup, ih]
      · have h3 : ¬ k1 = k' := h2
        simp [alRemove, alLookup, ih, h3]
    · by_cases h2 : k1 = k'
      · have h3 : ¬ k = k' := fun h => h1 (h2.trans h.symm)
        have h4 : ¬ k' = k := fun h => h1 (h2.trans h)
        simp [alRemove, alLookup, h1, h2, h3, h4]
      · simp [alRemove, alLookup, h1, h2, ih]

theorem alLookup_some_mem {α : Type} {l : List (String × α)} {k : String}
    {v : α} (h : alLookup l k = some v) : (k, v) ∈ l := by
  induction l with
  | nil => simp [alLookup] at h
  | cons p rest ih =>
    obtain ⟨k1, v1⟩ := p
    by_cases h1 : k1 = k
    · subst h1
      simp [alLookup] at h
      simp [h]
    · simp [alLookup, h1] at h
      exact List.mem_cons_of_mem _ (ih h)

theorem mem_alInsert {α : Type} {l : List (String × α)} {k : String} {v : α}
    {p : String × α} (h : p ∈ alInsert l k v) : p = (k, v) ∨ p ∈ l := by
  induction l with
  | nil => simpa [alInsert] using h
  | cons q rest ih =>
    obtain ⟨k1, v1⟩ := q
    by_cases h1 : k1 = k
    · subst h1
      simp [alInsert] at h
      rcases h with h | h
      · exact Or.inl (by simp [h])
      · exact Or.inr (List.mem_cons_of_mem _ h)
    · simp [alInsert, h1] at h
      rcases h with h | h
      · exact Or.inr (by simp [h])
      · rcases ih h with h' | h'
        · exact Or.inl h'
        · exact Or.inr (List.mem_cons_of_mem _ h')

/-- C1: for every `AddFile(path)` command the handler computes the
uppercase-hex SHA-256 of the file's contents; when `index_dir/<HASH>` does
not exist the file is copied to that path; when it exists as a regular
file it is left unchanged; when it exists but is not a regular file the
command fails with the "store broken" error; in the non-failing cases any
existing `store_dir/<basename>` entry is unlinked, a symlink to
`index_dir/<HASH>` is created, and the command returns ok. -/
theorem addFile_spec (fs : Fs) (filename : String) (content : List Nat) :
    (alLookup fs.index (fileHash content) = none →
      handle_add_file_command fs filename content =
        .ok { fs with
              index := alInsert fs.index (fileHash content) (.regular content)
              store := alInsert (alRemove fs.store filename) filename
                (fileHash content) }) ∧
    (∀ c, alLookup fs.index (fileHash content) = some (.regular c) →
      handle_add_file_command fs filename content =
        .ok { fs with
              store := alInsert (alRemove fs.store filename) filename
                (fileHash content) }) ∧
    (alLookup fs.index (fileHash content) = some .notRegular →
      handle_add_file_command fs filename content = .error .other) := by
  refine ⟨fun h => ?_, fun c h => ?_, fun h => ?_⟩ <;>
    simp [handle_add_file_command, h]

/-- Witness for C1 at the spec's first concrete scenario: adding
"notes.txt" with content "hello\n" (bytes 104 101 108 108 111 10) to an
empty store publishes it under the expected hash. -/
theorem addFile_spec_witness :
    handle_add_file_command ⟨[], [], []⟩ "notes.txt"
        [104, 101, 108, 108, 111, 10] =
      .ok { Fs.mk [] [] [] with
            index := alInsert [] (fileHash [104, 101, 108, 108, 111, 10])
              (.regular [104, 101, 108, 108, 111, 10])
            store := alInsert (alRemove [] "notes.txt") "notes.txt"
              (fileHash [104, 101, 108, 108, 111, 10]) } ∧
    fileHash [104, 101, 108, 108, 111, 10] =
      "5891B5B522D5DF086D0FF0B110FBD9D21BB4FC7163AF34D08286A2E846F6BE03" :=
  ⟨(addFile_spec ⟨[], [], []⟩ "notes.txt" [104, 101, 108, 108, 111, 10]).1 rfl,
   by decide⟩

/-!
Lemmas about the gossip snapshot application.
-/

theorem applyFileList_files_lookup (files : List FileEntry)
    (st : PeerNodeStore) (name : String) :
    alLookup (files.foldl applyFileEntry st).files name =
      match alLookup st.files name with
      | some h => some h
      | none => firstHashFor files name := by
  induction files generalizing st with
  | nil => cases h : alLookup st.files name <;> simp [firstHashFor, h]
  | cons f rest ih =>
    rw [List.foldl_cons, ih]
    cases hx : alLookup st.files f.filename with
    | some h0 =>
      have hfiles : (applyFileEntry st f).files = st.files := by
        simp [applyFileEntry, hx]
      rw [hfiles]
      cases hy : alLookup st.files name with
      | some h1 => simp
      | none =>
        have hne : ¬ f.filename = name := by
          intro h; rw [h, hy] at hx; exact Option.noConfusion hx
        simp [firstHashFor, List.find?_cons, hne]
    | none =>
      have hfiles : (applyFileEntry st f).files =
          alInsert st.files f.filename f.hash := by
        simp [applyFileEntry, hx]
      rw [hfiles, alLookup_alInsert]
      by_cases hname : f.filename = name
      · rw [if_pos hname, ← hname, hx]
        simp [firstHashFor, List.find?_cons, hname]
      · rw [if_neg hname]
        cases hy : alLookup st.files name <;>
          simp [firstHashFor, List.find?_cons, hname]

theorem lastSizeFor_cons (f : FileEntry) (rest : List FileEntry)
    (h : String) :
    lastSizeFor (f :: rest) h =
      match lastSizeFor rest h with
      | some s => some s
      | none => if f.hash = h then some f.file_size else none := by
  unfold lastSizeFor
  rw [List.reverse_cons, List.find?_append]
  cases hx : List.find? (fun g => g.hash = h) rest.reverse with
  | some g => simp [hx]
  | none =>
    by_cases hh : f.hash = h <;> simp [hx, List.find?_cons, hh]

theorem applyFileList_index_lookup (files : List FileEntry)
    (st : PeerNodeStore) (h : String) :
    alLookup (files.foldl applyFileEntry st).index h =
      match lastSizeFor files h with
      | some s => some s
      | none => alLookup st.index h := by
  induction files generalizing st with
  | nil => simp [lastSizeFor]
  | cons f rest ih =>
    rw [List.foldl_cons, ih, lastSizeFor_cons]
    have hidx : (applyFileEntry st f).index =
        alInsert st.index f.hash f.file_size := by
      simp [applyFileEntry]
    cases hy : lastSizeFor rest h with
    | some s => simp
    | none =>
      rw [hidx, alLookup_alInsert]
      by_cases hh : f.hash = h <;> simp [hh]

theorem lastSizeFor_isSome {f : FileEntry} {files : List FileEntry}
    (hf : f ∈ files) : (lastSizeFor files f.hash).isSome := by
  unfold lastSizeFor
  rw [Option.isSome_map', List.find?_isSome]
  exact ⟨f, by simpa using hf, by simp⟩

/-- C5: applying a received `FileMessage` replaces that peer's store
wholesale — the bound value is derived from the snapshot alone (both maps
are cleared first), every listed file's hash has an entry in the
hash-to-size index (the size being the one of the hash's last occurrence),
and for a filename occurring more than once the first occurrence's hash
wins. -/
theorem gossip_apply_spec (stores : List (String × PeerNodeStore))
    (peerId : String) (fileList : List FileEntry) :
    (alLookup (applyFileMessage stores peerId fileList) peerId =
      some (applyFileList fileList)) ∧
    (∀ f ∈ fileList,
      alLookup (applyFileList fileList).files f.filename =
        firstHashFor fileList f.filename) ∧
    (∀ f ∈ fileList,
      alLookup (applyFileList fileList).index f.hash =
        lastSizeFor fileList f.hash) ∧
    (∀ f ∈ fileList,
      (alLookup (applyFileList fileList).index f.hash).isSome) := by
  refine ⟨?_, ?_, ?_, ?_⟩
  · simp [applyFileMessage, alLookup_alInsert]
  · intro f _
    have h := applyFileList_files_lookup fileList PeerNodeStore.empty
      f.filename
    simpa [applyFileList, PeerNodeStore.empty, alLookup] using h
  · intro f _
    have h := applyFileList_index_lookup fileList PeerNodeStore.empty f.hash
    have hempty : alLookup PeerNodeStore.empty.index f.hash = none := rfl
    rw [applyFileList, h, hempty]
    cases lastSizeFor fileList f.hash <;> simp
  · intro f hf
    have h := applyFileList_index_lookup fileList PeerNodeStore.empty f.hash
    rw [applyFileList, h]
    have hs := lastSizeFor_isSome hf
    cases hx : lastSizeFor fileList f.hash with
    | some s => simp
    | none => rw [hx] at hs; simp at hs

/-- Witness for C5: a snapshot listing "a" twice (hashes H1 then H2) binds
"a" to the first hash H1. -/
theorem gossip_apply_spec_witness :
    alLookup (applyFileList
        [⟨"a", "H1", 5⟩, ⟨"a", "H2", 6⟩]).files "a" = some "H1" := by
  have h := (gossip_apply_spec [] "p"
    [⟨"a", "H1", 5⟩, ⟨"a", "H2", 6⟩]).2.1 ⟨"a", "H1", 5⟩ (by decide)
  rw [h]
  decide

/-!
Lemmas for the peer-store invariant (claim C9).
-/

theorem storeInv_applyFileEntry {st : PeerNodeStore} (hinv : StoreInv st)
    (f : FileEntry) : StoreInv (applyFileEntry st f) := by
  intro p hp
  have hmem : p = (f.filename, f.hash) ∨ p ∈ st.files := by
    cases hfe : alLookup st.files f.filename with
    | none =>
      have hfiles : (applyFileEntry st f).files =
          alInsert st.files f.filename f.hash := by
        simp [applyFileEntry, hfe]
      rw [hfiles] at hp
      exact mem_alInsert hp
    | some h0 =>
      have hfiles : (applyFileEntry st f).files = st.files := by
        simp [applyFileEntry, hfe]
      rw [hfiles] at hp
      exact Or.inr hp
  have hidx : (applyFileEntry st f).index =
      alInsert st.index f.hash f.file_size := by
    simp [applyFileEntry]
  rw [hidx, alLookup_alInsert]
  rcases hmem with h | h
  · rw [h]
    simp
  · by_cases hh : f.hash = p.2
    · simp [hh]
    · rw [if_neg hh]
      exact hinv p h

theorem storeInv_applyFileList (files : List FileEntry) :
    StoreInv (applyFileList files) := by
  have hgen : ∀ st, StoreInv st → StoreInv (files.foldl applyFileEntry st) := by
    induction files with
    | nil => intro st h; exact h
    | cons f rest ih => intro st h; exact ih _ (storeInv_applyFileEntry h f)
  refine hgen PeerNodeStore.empty ?_
  intro p hp
  simp [PeerNodeStore.empty] at hp

theorem needSyncPeer_ok (L : List (String × String)) (peer : String)
    (st : PeerNodeStore) (hinv : StoreInv st) :
    ∀ pairs, (∀ p ∈ pairs, p ∈ st.files) →
      ∀ acc, ∃ r, needSyncPeer L peer st pairs acc = .ok r := by
  intro pairs
  induction pairs with
  | nil => exact fun _ acc => ⟨acc, rfl⟩
  | cons q rest ih =>
    intro hsub acc
    obtain ⟨fn, h⟩ := q
    by_cases hL : (fn, h) ∈ L
    · simpa [needSyncPeer, hL] using
        ih (fun p hp => hsub p (List.mem_cons_of_mem _ hp)) acc
    · cases hacc : alLookup acc h with
      | some hf =>
        simpa [needSyncPeer, hL, hacc] using
          ih (fun p hp => hsub p (List.mem_cons_of_mem _ hp)) _
      | none =>
        have hidx : (alLookup st.index h).isSome :=
          hinv (fn, h) (hsub _ (List.mem_cons_self _ _))
        cases hsz : alLookup st.index h with
        | none => rw [hsz] at hidx; simp at hidx
        | some size =>
          simpa [needSyncPeer, hL, hacc, hsz] using
            ih (fun p hp => hsub p (List.mem_cons_of_mem _ hp)) _

theorem needSyncAll_ok (L : List (String × String))
    (peerStores : List (String × PeerNodeStore))
    (hinv : ∀ p ∈ peerStores, StoreInv p.2) :
    ∀ acc, ∃ r, needSyncAll L peerStores acc = .ok r := by
  induction peerStores with
  | nil => exact fun acc => ⟨acc, rfl⟩
  | cons ps rest ih =>
    intro acc
    obtain ⟨r1, h1⟩ := needSyncPeer_ok L ps.1 ps.2
      (hinv ps (List.mem_cons_self _ _)) ps.2.files (fun _ hp => hp) acc
    obtain ⟨r2, h2⟩ := ih (fun p hp => hinv p (List.mem_cons_of_mem _ hp)) r1
    exact ⟨r2, by simp [needSyncAll, h1, h2]⟩

theorem collectPeerFilesOne_ok (peerId : String) (st : PeerNodeStore)
    (hinv : StoreInv st) :
    ∀ pairs, (∀ p ∈ pairs, p ∈ st.files) →
      ∀ acc, ∃ r, collectPeerFilesOne peerId st pairs acc = .ok r := by
  intro pairs
  induction pairs with
  | nil => exact fun _ acc => ⟨acc, rfl⟩
  | cons q rest ih =>
    intro hsub acc
    have hidx : (alLookup st.index q.2).isSome :=
      hinv q (hsub _ (List.mem_cons_self _ _))
    cases hsz : alLookup st.index q.2 with
    | none => rw [hsz] at hidx; simp at hidx
    | some size =>
      simpa [collectPeerFilesOne, hsz] using
        ih (fun p hp => hsub p (List.mem_cons_of_mem _ hp)) _

theorem collectPeerFilesAll_ok (peerStores : List (String × PeerNodeStore))
    (hinv : ∀ p ∈ peerStores, StoreInv p.2) :
    ∀ acc, ∃ r, collectPeerFilesAll peerStores acc = .ok r := by
  induction peerStores with
  | nil => exact fun acc => ⟨acc, rfl⟩
  | cons ps rest ih =>
    intro acc
    obtain ⟨r1, h1⟩ := collectPeerFilesOne_ok ps.1 ps.2
      (hinv ps (List.mem_cons_self _ _)) ps.2.files (fun _ hp => hp) acc
    obtain ⟨r2, h2⟩ := ih (fun p hp => hinv p (List.mem_cons_of_mem _ hp)) r1
    exact ⟨r2, by simp [collectPeerFilesAll, h1, h2]⟩

/-- C9: every peer store produced by applying a `FileMessage` satisfies the
invariant that each hash bound in the filename map has an entry in the
size index; and under that invariant neither the `unwrap` in the sync diff
nor the panicking lookup in list-files-with-peers can fire (both embedded
as the `missingHashInIndex` error, which is never returned). -/
theorem peer_store_invariant_spec (fileList : List FileEntry) (fs : Fs)
    (peerStores : List (String × PeerNodeStore))
    (hinv : ∀ p ∈ peerStores, StoreInv p.2) :
    StoreInv (applyFileList fileList) ∧
    (∃ r, need_sync fs peerStores = .ok r) ∧
    (∃ d, collectPeerFileDetails peerStores = .ok d) := by
  refine ⟨storeInv_applyFileList fileList, ?_, ?_⟩
  · obtain ⟨r, hr⟩ := needSyncAll_ok fs.store peerStores hinv []
    cases r with
    | nil => exact ⟨none, by simp [need_sync, hr]⟩
    | cons e rest => exact ⟨some (e :: rest), by simp [need_sync, hr]⟩
  · obtain ⟨d, hd⟩ := collectPeerFilesAll_ok peerStores hinv []
    exact ⟨d, by simpa [collectPeerFileDetails] using hd⟩

/-- Witness for C9: a store advertising one file whose hash is present in
its index passes both panic-prone paths. -/
theorem peer_store_invariant_spec_witness :
    (∃ r, need_sync ⟨[], [], []⟩
      [("p", PeerNodeStore.mk [("a", "H")] [("H", 5)])] = .ok r) ∧
    (∃ d, collectPeerFileDetails
      [("p", PeerNodeStore.mk [("a", "H")] [("H", 5)])] = .ok d) := by
  have hinv : ∀ p ∈ [("p", PeerNodeStore.mk [("a", "H")] [("H", 5)])],
      StoreInv p.2 := by
    intro p hp
    simp at hp
    subst hp
    intro q hq
    simp at hq
    subst hq
    decide
  have h := peer_store_invariant_spec [] ⟨[], [], []⟩
    [("p", PeerNodeStore.mk [("a", "H")] [("H", 5)])] hinv
  exact ⟨h.2.1, h.2.2⟩

/-- C2 counterexample: finalizing an entry (hash "H", finished at offset 1
of size 1) whose single candidate filename "x" already exists in
`store_dir` makes the finalize task fail with `AlreadyExists` — the
already-existing symlink is not treated as success. -/
theorem finalize_spec_counterexample :
    handle_sync_files_result [] ⟨[], [("H", [1])], [("x", "OTHER")]⟩
      [("H", ⟨"H", ["x"], ["p"], 1, 1⟩)] = .error .alreadyExists := by
  decide

/-- C2 (amended): in the finalize phase, for an entry with
`syncing_offset ≥ size` and candidate filename list `[fn]`: the tmp→index
rename tolerates only `NotFound` (its other failures — an `AlreadyExists`
outcome included — would propagate, though POSIX rename replaces an
existing destination instead of failing); the symlink creation is not
idempotent — when `store_dir/<fn>` already exists the whole finalize fails
with `AlreadyExists` and the entry is not removed — and when `fn` is
absent from `store_dir` the entry finalizes (rename performed or its
absence tolerated, symlink created) and is removed from the in-progress
map. -/
theorem finalize_spec (fs : Fs) (fn : String) (hf : HashFile)
    (hdone : hf.size ≤ hf.syncing_offset) (hnames : hf.filenames = [fn]) :
    (∀ c, alLookup fs.tmp hf.hash = some c →
      alContains fs.store fn = false →
      handle_sync_files_result [] fs [(hf.hash, hf)] =
        .ok ({ fs with
               tmp := alRemove fs.tmp hf.hash
               index := alInsert fs.index hf.hash (.regular c)
               store := fs.store ++ [(fn, hf.hash)] }, none)) ∧
    (alLookup fs.tmp hf.hash = none → alContains fs.store fn = false →
      handle_sync_files_result [] fs [(hf.hash, hf)] =
        .ok ({ fs with store := fs.store ++ [(fn, hf.hash)] }, none)) ∧
    (alContains fs.store fn = true →
      handle_sync_files_result [] fs [(hf.hash, hf)] =
        .error .alreadyExists) := by
  have hlt : ¬ hf.syncing_offset < hf.size := Nat.not_lt.2 hdone
  refine ⟨fun c htmp hstore => ?_, fun htmp hstore => ?_, fun hstore => ?_⟩
  · simp [handle_sync_files_result, finalizeLoop, finalizeHashFile,
      renameTmpFile, symlinkStore, hlt, hnames, htmp, hstore]
  · simp [handle_sync_files_result, finalizeLoop, finalizeHashFile,
      renameTmpFile, symlinkStore, hlt, hnames, htmp, hstore]
  · cases htmp : alLookup fs.tmp hf.hash with
    | some c =>
      simp [handle_sync_files_result, finalizeLoop, finalizeHashFile,
        renameTmpFile, symlinkStore, hlt, hnames, htmp, hstore]
    | none =>
      simp [handle_sync_files_result, finalizeLoop, finalizeHashFile,
        renameTmpFile, symlinkStore, hlt, hnames, htmp, hstore]

/-- Witness for the amended C2: a finished entry whose filename is free
finalizes — the temp file moves into the index, the symlink appears, and
the entry leaves the map. -/
theorem finalize_spec_witness :
    handle_sync_files_result [] ⟨[], [("H", [1, 2])], []⟩
      [("H", ⟨"H", ["x"], ["p"], 2, 2⟩)] =
      .ok ({ Fs.mk [] [("H", [1, 2])] [] with
             tmp := alRemove [("H", [1, 2])] "H"
             index := alInsert [] "H" (.regular [1, 2])
             store := [] ++ [("x", "H")] }, none) :=
  (finalize_spec ⟨[], [("H", [1, 2])], []⟩ "x" ⟨"H", ["x"], ["p"], 2, 2⟩
    (by decide) rfl).1 [1, 2] (by decide) (by decide)

/-- C4 counterexample: for a single remote file of 20 MiB absent locally,
one sync tick issues three chunk requests whose lengths are all 8 MiB —
the request list is not the claimed one whose final chunk asks for the
4 MiB remainder. -/
theorem sync_chunks_counterexample :
    ((sync_files ⟨[], [], []⟩ [("p", ⟨[("x", "H")], [("H", 20971520)]⟩)]
        none).map fun r => r.1.map fun q => (q.offset, q.length)) =
      .ok [(0, 8388608), (8388608, 8388608), (16777216, 8388608)] ∧
    ([(0, 8388608), (8388608, 8388608), (16777216, 8388608)] :
        List (Nat × Nat)) ≠
      [(0, 8388608), (8388608, 8388608), (16777216, 4194304)] := by
  constructor
  · decide
  · decide

/-- C4 (amended): for a single remote file of size 20 MiB absent locally,
one sync tick issues exactly three chunk requests at offsets 0, 8 MiB and
16 MiB, each requesting the full 8 MiB (the final chunk's remainder is
covered by the short-read tolerance, not by a shorter request), advancing
`syncing_offset` to 24 MiB ≥ size; after the chunks return, the temp file
is renamed into `index_dir` and the `store_dir/x` symlink is created, and
the entry leaves the in-progress map. -/
theorem sync_20MiB_spec (c : List Nat) :
    sync_files ⟨[], [], []⟩ [("p", ⟨[("x", "H")], [("H", 20971520)]⟩)]
        none =
      .ok ([⟨"x", "H", 0, 8388608⟩, ⟨"x", "H", 8388608, 8388608⟩,
            ⟨"x", "H", 16777216, 8388608⟩],
           some [("H", ⟨"H", ["x"], ["p"], 20971520, 25165824⟩)]) ∧
    handle_sync_files_result [] ⟨[], [("H", c)], []⟩
        [("H", ⟨"H", ["x"], ["p"], 20971520, 25165824⟩)] =
      .ok (⟨[("H", .regular c)], [], [("x", "H")]⟩, none) := by
  constructor
  · decide
  · rfl

/-- Witness for the amended C4 with concrete chunk content. -/
theorem sync_20MiB_spec_witness :
    handle_sync_files_result [] ⟨[], [("H", [7])], []⟩
        [("H", ⟨"H", ["x"], ["p"], 20971520, 25165824⟩)] =
      .ok (⟨[("H", .regular [7])], [], [("x", "H")]⟩, none) :=
  (sync_20MiB_spec [7]).2

/-!
Lemmas for the sync diff (claim C8).
-/

theorem needSyncPeer_covered (L : List (String × String)) (peer : String)
    (st : PeerNodeStore) :
    ∀ pairs, (∀ p ∈ pairs, p ∈ L) →
      ∀ acc, needSyncPeer L peer st pairs acc = .ok acc := by
  intro pairs
  induction pairs with
  | nil => exact fun _ _ => rfl
  | cons q rest ih =>
    intro hcov acc
    have hq : q ∈ L := hcov q (List.mem_cons_self _ _)
    obtain ⟨fn, h⟩ := q
    simpa [needSyncPeer, hq] using
      ih (fun p hp => hcov p (List.mem_cons_of_mem _ hp)) acc

theorem needSyncAll_covered (L : List (String × String)) :
    ∀ peerStores : List (String × PeerNodeStore),
      (∀ ps ∈ peerStores, ∀ p ∈ ps.2.files, p ∈ L) →
      ∀ acc, needSyncAll L peerStores acc = .ok acc := by
  intro peerStores
  induction peerStores with
  | nil => exact fun _ _ => rfl
  | cons ps rest ih =>
    intro hcov acc
    have h1 := needSyncPeer_covered L ps.1 ps.2 ps.2.files
      (hcov ps (List.mem_cons_self _ _)) acc
    simpa [needSyncAll, h1] using
      ih (fun p hp => hcov p (List.mem_cons_of_mem _ hp)) acc

theorem needSyncPeer_keys (L : List (String × String)) (peer : String)
    (st : PeerNodeStore) :
    ∀ pairs acc res, needSyncPeer L peer st pairs acc = .ok res →
      ∀ e ∈ res, (∃ e' ∈ acc, e'.1 = e.1) ∨
        ∃ fn, (fn, e.1) ∈ pairs ∧ (fn, e.1) ∉ L := by
  intro pairs
  induction pairs with
  | nil =>
    intro acc res hres e he
    simp [needSyncPeer] at hres
    subst hres
    exact Or.inl ⟨e, he, rfl⟩
  | cons q rest ih =>
    intro acc res hres e he
    obtain ⟨fn, h⟩ := q
    by_cases hL : (fn, h) ∈ L
    · rw [needSyncPeer, if_pos hL] at hres
      rcases ih acc res hres e he with hacc | ⟨fn', hmem, hnin⟩
      · exact Or.inl hacc
      · exact Or.inr ⟨fn', List.mem_cons_of_mem _ hmem, hnin⟩
    · rw [needSyncPeer, if_neg hL] at hres
      cases hacc : alLookup acc h with
      | some hf =>
        rw [hacc] at hres
        rcases ih _ res hres e he with ⟨e', he', hkey⟩ | ⟨fn', hmem, hnin⟩
        · rcases mem_alInsert he' with heq | hin
          · refine Or.inl ⟨(h, hf), alLookup_some_mem hacc, ?_⟩
            rw [← hkey, heq]
          · exact Or.inl ⟨e', hin, hkey⟩
        · exact Or.inr ⟨fn', List.mem_cons_of_mem _ hmem, hnin⟩
      | none =>
        rw [hacc] at hres
        cases hsz : alLookup st.index h with
        | none => rw [hsz] at hres; exact absurd hres (by simp)
        | some size =>
          rw [hsz] at hres
          rcases ih _ res hres e he with ⟨e', he', hkey⟩ | ⟨fn', hmem, hnin⟩
          · rcases List.mem_append.1 he' with hin | hin
            · exact Or.inl ⟨e', hin, hkey⟩
            · simp at hin
              have hkey2 : e.1 = h := by rw [← hkey, hin]
              refine Or.inr ⟨fn, ?_, ?_⟩
              · rw [hkey2]; exact List.mem_cons_self _ _
              · rw [hkey2]; exact hL
          · exact Or.inr ⟨fn', List.mem_cons_of_mem _ hmem, hnin⟩

theorem needSyncAll_keys (L : List (String × String)) :
    ∀ peerStores : List (String × PeerNodeStore), ∀ acc res,
      needSyncAll L peerStores acc = .ok res →
      ∀ e ∈ res, (∃ e' ∈ acc, e'.1 = e.1) ∨
        ∃ ps ∈ peerStores, ∃ fn, (fn, e.1) ∈ ps.2.files ∧ (fn, e.1) ∉ L := by
  intro peerStores
  induction peerStores with
  | nil =>
    intro acc res hres e he
    simp [needSyncAll] at hres
    subst hres
    exact Or.inl ⟨e, he, rfl⟩
  | cons ps rest ih =>
    intro acc res hres e he
    rw [needSyncAll] at hres
    cases hone : needSyncPeer L ps.1 ps.2 ps.2.files acc with
    | error err => rw [hone] at hres; exact absurd hres (by simp)
    | ok acc' =>
      rw [hone] at hres
      rcases ih acc' res hres e he with hacc' | ⟨ps', hmem, fn, hf, hnin⟩
      · obtain ⟨e', he', hkey⟩ := hacc'
        rcases needSyncPeer_keys L ps.1 ps.2 ps.2.files acc acc' hone e' he'
          with ⟨e'', he'', hkey'⟩ | ⟨fn, hmem, hnin⟩
        · exact Or.inl ⟨e'', he'', hkey'.trans hkey⟩
        · exact Or.inr ⟨ps, List.mem_cons_self _ _, fn, by rw [hkey] at hmem; exact hmem,
            by rw [hkey] at hnin; exact hnin⟩
      · exact Or.inr ⟨ps', List.mem_cons_of_mem _ hmem, fn, hf, hnin⟩

theorem needSyncPeer_hashfield (L : List (String × String)) (peer : String)
    (st : PeerNodeStore) :
    ∀ pairs acc res, needSyncPeer L peer st pairs acc = .ok res →
      (∀ e ∈ acc, e.2.hash = e.1) → ∀ e ∈ res, e.2.hash = e.1 := by
  intro pairs
  induction pairs with
  | nil =>
    intro acc res hres hacc e he
    simp [needSyncPeer] at hres
    subst hres
    exact hacc e he
  | cons q rest ih =>
    intro acc res hres hacc e he
    obtain ⟨fn, h⟩ := q
    by_cases hL : (fn, h) ∈ L
    · rw [needSyncPeer, if_pos hL] at hres
      exact ih acc res hres hacc e he
    · rw [needSyncPeer, if_neg hL] at hres
      cases hlk : alLookup acc h with
      | some hf =>
        rw [hlk] at hres
        refine ih _ res hres ?_ e he
        intro e' he'
        rcases mem_alInsert he' with heq | hin
        · have hhf : hf.hash = h := hacc (h, hf) (alLookup_some_mem hlk)
          rw [heq]
          exact hhf
        · exact hacc e' hin
      | none =>
        rw [hlk] at hres
        cases hsz : alLookup st.index h with
        | none => rw [hsz] at hres; exact absurd hres (by simp)
        | some size =>
          rw [hsz] at hres
          refine ih _ res hres ?_ e he
          intro e' he'
          rcases List.mem_append.1 he' with hin | hin
          · exact hacc e' hin
          · simp at hin
            simp [hin]
  
theorem needSyncAll_hashfield (L : List (String × String)) :
    ∀ peerStores : List (String × PeerNodeStore), ∀ acc res,
      needSyncAll L peerStores acc = .ok res →
      (∀ e ∈ acc, e.2.hash = e.1) → ∀ e ∈ res, e.2.hash = e.1 := by
  intro peerStores
  induction peerStores with
  | nil =>
    intro acc res hres hacc e he
    simp [needSyncAll] at hres
    subst hres
    exact hacc e he
  | cons ps rest ih =>
    intro acc res hres hacc e he
    rw [needSyncAll] at hres
    cases hone : needSyncPeer L ps.1 ps.2 ps.2.files acc with
    | error err => rw [hone] at hres; exact absurd hres (by simp)
    | ok acc' =>
      rw [hone] at hres
      exact ih acc' res hres
        (needSyncPeer_hashfield L ps.1 ps.2 ps.2.files acc acc' hone hacc) e he

theorem syncSchedule_req_hash :
    ∀ entries budget, ∀ r ∈ (syncSchedule entries budget).1,
      ∃ e ∈ entries, r.hash = e.2.hash := by
  intro entries
  induction entries with
  | nil => intro budget r hr; simp [syncSchedule] at hr
  | cons p rest ih =>
    intro budget r hr
    obtain ⟨key, hf⟩ := p
    by_cases hb : budget = 0
    · simp [syncSchedule, hb] at hr
    · rw [syncSchedule] at hr
      simp only [if_neg hb] at hr
      rcases List.mem_append.1 hr with hin | hin
      · obtain ⟨c, _, hc⟩ := List.mem_map.1 hin
        exact ⟨(key, hf), List.mem_cons_self _ _, by rw [← hc]⟩
      · obtain ⟨e, he, hkey⟩ := ih _ r hin
        exact ⟨e, List.mem_cons_of_mem _ he, hkey⟩

/-- C8: the sync diff schedules requests only for `(filename, hash)` pairs
advertised by some peer store and absent from the local set derived from
`store_dir`; when the local set covers every advertised pair, `sync_files`
dispatches no chunk requests and returns no sync task. -/
theorem sync_diff_spec (fs : Fs)
    (peerStores : List (String × PeerNodeStore)) :
    (∀ reqs task, sync_files fs peerStores none = .ok (reqs, task) →
      ∀ r ∈ reqs, ∃ ps ∈ peerStores, ∃ fn,
        (fn, r.hash) ∈ ps.2.files ∧ (fn, r.hash) ∉ fs.store) ∧
    ((∀ ps ∈ peerStores, ∀ p ∈ ps.2.files, p ∈ fs.store) →
      sync_files fs peerStores none = .ok ([], none)) := by
  constructor
  · intro reqs task hsync r hr
    cases hall : needSyncAll fs.store peerStores [] with
    | error err => simp [sync_files, need_sync, hall] at hsync
    | ok entries =>
      cases entries with
      | nil =>
        simp [sync_files, need_sync, hall] at hsync
        rw [hsync.1] at hr
        simp at hr
      | cons e0 erest =>
        have hreqs : reqs = (syncSchedule (e0 :: erest)
            MAX_CONCURRENT_SYNC_TASKS).1 := by
          simp [sync_files, need_sync, hall] at hsync
          rw [← hsync.1]
        obtain ⟨e, he, hkey⟩ :=
          syncSchedule_req_hash (e0 :: erest) MAX_CONCURRENT_SYNC_TASKS r
            (by rw [← hreqs]; exact hr)
        have hhash : e.2.hash = e.1 :=
          needSyncAll_hashfield fs.store peerStores [] _ hall
            (by intro e' he'; simp at he') e he
        rcases needSyncAll_keys fs.store peerStores [] _ hall e he with
          ⟨e', he', _⟩ | ⟨ps, hps, fn, hfmem, hnin⟩
        · simp at he'
        · refine ⟨ps, hps, fn, ?_, ?_⟩
          · rw [hkey, hhash]; exact hfmem
          · rw [hkey, hhash]; exact hnin
  · intro hcov
    have hall := needSyncAll_covered fs.store peerStores hcov []
    simp [sync_files, need_sync, hall]

/-- Witness for C8: a peer advertising only a pair the local store already
publishes triggers no requests and no sync task. -/
theorem sync_diff_spec_witness :
    sync_files ⟨[], [], [("x", "H")]⟩
      [("p", PeerNodeStore.mk [("x", "H")] [("H", 5)])] none =
      .ok ([], none) :=
  (sync_diff_spec ⟨[], [], [("x", "H")]⟩
    [("p", PeerNodeStore.mk [("x", "H")] [("H", 5)])]).2 (by decide)

theorem alLookup_append_right {α : Type} {l : List (String × α)}
    {k : String} (h : alLookup l k = none) (v : α) :
    alLookup (l ++ [(k, v)]) k = some v := by
  induction l with
  | nil => simp [alLookup]
  | cons p rest ih =>
    obtain ⟨k1, v1⟩ := p
    by_cases h1 : k1 = k
    · rw [alLookup, if_pos h1] at h
      exact Option.noConfusion h
    · rw [alLookup, if_neg h1] at h
      rw [List.cons_append, alLookup, if_neg h1]
      exact ih h

/-- C6: for every `UploadFile` stream ingest, the temp file is renamed to
`index_dir/<H>` where `H` is the uppercase-hex SHA-256 computed over the
received bytes; an `AlreadyExists` outcome of that rename and of the
subsequent `store_dir` symlink creation is treated as success; and a
caller-supplied expected hash differing from the computed one does not
fail the upload — the content is published under the computed hash. -/
theorem upload_spec (fs : Fs) (filename tmpName : String)
    (hash : Option String) (content : List Nat) :
    (∃ fs', upload_file fs filename hash tmpName content =
        .ok (fs', fileHash content) ∧
      alLookup fs'.index (fileHash content) = some (.regular content) ∧
      (alContains fs.store filename = false →
        alLookup fs'.store filename = some (fileHash content))) ∧
    uploadRenameDispatch (.error .alreadyExists) = .ok () ∧
    uploadSymlinkDispatch (.error .alreadyExists) = .ok () := by
  refine ⟨?_, rfl, rfl⟩
  have htmp : alLookup (alInsert fs.tmp (".upload." ++ tmpName) content)
      (".upload." ++ tmpName) = some content := by
    rw [alLookup_alInsert]
    simp
  cases hc : alContains fs.store filename with
  | true =>
    refine ⟨{ fs with
              tmp := alRemove (alInsert fs.tmp (".upload." ++ tmpName)
                content) (".upload." ++ tmpName)
              index := alInsert fs.index (fileHash content)
                (.regular content) }, ?_, ?_, ?_⟩
    · simp [upload_file, renameTmpFile, htmp, uploadRenameDispatch,
        uploadSymlinkDispatch, symlinkStore, hc, Except.map]
    · simp [alLookup_alInsert]
    · intro hfalse
      exact Bool.noConfusion hfalse
  | false =>
    refine ⟨{ fs with
              tmp := alRemove (alInsert fs.tmp (".upload." ++ tmpName)
                content) (".upload." ++ tmpName)
              index := alInsert fs.index (fileHash content)
                (.regular content)
              store := fs.store ++ [(filename, fileHash content)] },
        ?_, ?_, ?_⟩
    · simp [upload_file, renameTmpFile, htmp, uploadRenameDispatch,
        uploadSymlinkDispatch, symlinkStore, hc, Except.map]
    · simp [alLookup_alInsert]
    · intro _
      have hnone : alLookup fs.store filename = none := by
        unfold alContains at hc
        cases hx : alLookup fs.store filename with
        | none => rfl
        | some v => rw [hx] at hc; simp at hc
      exact alLookup_append_right hnone _

/-- Witness for C6: uploading bytes "hi" with a wrong expected hash
"MISMATCH" still succeeds and publishes under the computed hash. -/
theorem upload_spec_witness :
    ∃ fs', upload_file ⟨[], [], []⟩ "a.txt" (some "MISMATCH") "r16"
        [104, 105] = .ok (fs', fileHash [104, 105]) ∧
      alLookup fs'.index (fileHash [104, 105]) =
        some (.regular [104, 105]) ∧
      alLookup fs'.store "a.txt" = some (fileHash [104, 105]) := by
  obtain ⟨fs', h1, h2, h3⟩ := (upload_spec ⟨[], [], []⟩ "a.txt" "r16"
    (some "MISMATCH") [104, 105]).1
  exact ⟨fs', h1, h2, h3 rfl⟩

/-- C7 counterexample: serving a request whose hash does not match the
`store_dir` symlink target fails with `InvalidData` and sends nothing to
the peer — no reply carrying an error exists (`FileResponse` has no error
field; the handler returns the error and the response channel is
dropped). -/
theorem serve_mismatch_counterexample :
    handleInboundFileRequest ⟨[("H1", .regular [1])], [], [("a", "H1")]⟩
      ⟨"a", "H2", 0, 4⟩ =
      (⟨[("H1", .regular [1])], [], [("a", "H1")]⟩, none,
        .error .invalidData) := by
  decide

/-- C7 (amended): serving an inbound `FileRequest`: when the file is
absent (no `store_dir` symlink and `index_dir/<hash>` cannot be opened)
the peer receives a reply with absent content; when `store_dir/<filename>`
resolves to an index path other than `index_dir/<hash>` the operation
fails with `InvalidData`, the error propagates out of the request handler
and no reply is sent; otherwise up to `length` bytes are read at `offset`
(short reads allowed) and replied. -/
theorem serve_request_spec (fs : Fs) (filename hash : String)
    (offset length : Nat) :
    (alLookup fs.store filename = none → alLookup fs.index hash = none →
      handleInboundFileRequest fs ⟨filename, hash, offset, length⟩ =
        (fs, some ⟨none⟩, .ok ())) ∧
    (∀ target, alLookup fs.store filename = some target → target ≠ hash →
      handleInboundFileRequest fs ⟨filename, hash, offset, length⟩ =
        (fs, none, .error .invalidData)) ∧
    (∀ content, alLookup fs.store filename = some hash →
      alLookup fs.index hash = some (.regular content) →
      handleInboundFileRequest fs ⟨filename, hash, offset, length⟩ =
        (fs, some ⟨some (readAt content offset length)⟩, .ok ())) ∧
    (∀ content, (readAt content offset length).length ≤ length) := by
  refine ⟨fun h1 h2 => ?_, fun t h1 h2 => ?_, fun c h1 h2 => ?_, fun c => ?_⟩
  · simp [handleInboundFileRequest, read_file, h1, h2]
  · simp [handleInboundFileRequest, read_file, h1, h2]
  · simp [handleInboundFileRequest, read_file, h1, h2]
  · simp [readAt]

/-- Witness for the amended C7: a matching request at offset 1 with length
5 against 3-byte content gets the 2-byte short read. -/
theorem serve_request_spec_witness :
    handleInboundFileRequest ⟨[("H", .regular [9, 8, 7])], [], [("a", "H")]⟩
      ⟨"a", "H", 1, 5⟩ =
      (⟨[("H", .regular [9, 8, 7])], [], [("a", "H")]⟩,
        some ⟨some (readAt [9, 8, 7] 1 5)⟩, .ok ()) :=
  (serve_request_spec ⟨[("H", .regular [9, 8, 7])], [], [("a", "H")]⟩
    "a" "H" 1 5).2.2.1 [9, 8, 7] (by decide) (by decide)

/-- C10: serving an inbound request is not read-only — when
`store_dir/<filename>` does not exist but `index_dir/<hash>` can be
opened (which `File::open` does for any existing entry, a directory
included), the handler creates the `store_dir/<filename>` symlink before
attempting the read and the reply; in every other case (the store entry
already exists, or there is no index entry to open) serving leaves the
on-disk state unchanged. -/
theorem serve_symlink_side_effect_spec (fs : Fs) (filename hash : String)
    (offset length : Nat) :
    (∀ e, alLookup fs.store filename = none →
      alLookup fs.index hash = some e →
      (read_file fs filename hash offset length).1 =
        { fs with store := fs.store ++ [(filename, hash)] }) ∧
    ((alLookup fs.store filename).isSome ∨ alLookup fs.index hash = none →
      (read_file fs filename hash offset length).1 = fs) := by
  constructor
  · intro e h1 h2
    have hcon : alContains fs.store filename = false := by
      simp [alContains, h1]
    cases e <;> simp [read_file, h1, h2, symlinkStore, hcon]
  · intro hcase
    rcases hcase with hs | hn
    · cases h1 : alLookup fs.store filename with
      | none => rw [h1] at hs; simp at hs
      | some target =>
        by_cases ht : target ≠ hash
        · simp [read_file, h1, ht]
        · cases h2 : alLookup fs.index hash with
          | none => simp [read_file, h1, ht, h2]
          | some e => cases e <;> simp [read_file, h1, ht, h2]
    · cases h1 : alLookup fs.store filename with
      | none => simp [read_file, h1, hn]
      | some target =>
        by_cases ht : target ≠ hash
        · simp [read_file, h1, ht]
        · simp [read_file, h1, ht, hn]

/-- Witness for C10: serving a request whose hash names a non-regular
index entry (a directory) still creates the symlink before the read
fails, and serving a published regular file leaves the symlink already
in place. -/
theorem serve_symlink_side_effect_spec_witness :
    (read_file ⟨[("H", .notRegular)], [], []⟩ "a" "H" 0 1).1 =
      { Fs.mk [("H", .notRegular)] [] [] with
        store := [] ++ [("a", "H")] } :=
  (serve_symlink_side_effect_spec ⟨[("H", .notRegular)], [], []⟩
    "a" "H" 0 1).1 .notRegular (by decide) (by decide)

/-- C3 counterexample: a swarm event whose handling fails — an inbound
file request whose hash does not match the store symlink — terminates the
loop: `run` returns the handler's error instead of continuing to the next
iteration. -/
theorem loop_exit_counterexample :
    (handle_event
        ⟨⟨[("H1", .regular [1])], [], [("a", "H1")]⟩,
          [], [], [], [], [], [], [], []⟩
        (.requestRespond (.inboundRequest ⟨"a", "H2", 0, 1⟩))).result =
      .error .invalidData ∧
    runStep
        ⟨⟨[("H1", .regular [1])], [], [("a", "H1")]⟩,
          [], [], [], [], [], [], [], []⟩
        (.requestRespond (.inboundRequest ⟨"a", "H2", 0, 1⟩)) =
      .exitRun .invalidData := by
  constructor
  · decide
  · decide

/-- C3 (amended): the swarm-event arm of the node loop applies `?` to the
handler result, so event-handling failures (gossip decode errors,
request/response serving errors) are propagated out of `run`, terminating
the loop; only successful handling continues with the updated state. -/
theorem loop_error_propagation_spec (s : NodeState) (ev : SwarmEv) :
    (∀ e, (handle_event s ev).result = .error e →
      runStep s ev = .exitRun e) ∧
    ((handle_event s ev).result = .ok () →
      runStep s ev = .next (handle_event s ev).state) := by
  constructor
  · intro e he
    simp [runStep, he]
  · intro h
    simp [runStep, h]

/-- Witness for the amended C3: a file-share gossip message whose payload
fails to decode exits the loop with the decode error. -/
theorem loop_error_propagation_spec_witness :
    runStep ⟨⟨[], [], []⟩, [], [], [], [], [], [], [], []⟩
      (.gossip (.fileShareMessage none)) = .exitRun .decodeError :=
  (loop_error_propagation_spec
    ⟨⟨[], [], []⟩, [], [], [], [], [], [], [], []⟩
    (.gossip (.fileShareMessage none))).1 .decodeError (by decide)

end PrivateShare
